import Mathlib

/-!
Verification of the agent-orchestration core of the IDEhome repository.

Each section shallowly embeds one component of the source (the context
pruner, the JSON-recovery extractor, the dual-backend virtual filesystem,
the code index, the syntax-gated tool dispatcher and the per-provider
tool-calling loops of `AIService.sendMessage`) as executable Lean
definitions, and proves the specified properties about them.
-/

namespace IDEhome

/-! ### ContextPruner: `pruneMessages`

Transcribed from `pruneMessages(messages, maxChars)` in the service source.
Messages are kept abstract (`Msg`); the serialized-size estimate
`JSON.stringify(msg).length` that the source computes on each message is
abstracted as an arbitrary size function `sz : Msg → Nat`, so every theorem
below holds for the actual serialization length in particular. -/

namespace ContextPruner

variable {Msg : Type}

/-- The interior walk of `pruneMessages`: the source iterates
`middleMessages` from the last index down to 0, breaking at the first
message whose size would push `currentChars` over `maxChars`, and
`unshift`s each kept message so the kept block stays in original order.
`keepLoop` receives the interior list already reversed (most recent
first), mirroring the descending iteration. -/
def keepLoop (sz : Msg → Nat) (maxChars : Nat) : List Msg → Nat → List Msg
  | [], _ => []
  | m :: rest, currentChars =>
    if currentChars + sz m > maxChars then []
    else keepLoop sz maxChars rest (currentChars + sz m) ++ [m]

/-- Transcription of `pruneMessages`: histories of length ≤ 2 are returned
unchanged; otherwise the first message (`systemMsg`) and the last message
are retained unconditionally, the interior is walked from most recent to
oldest with the running character total seeded by the sizes of the first
and last messages, and the result is first + kept interior + last. -/
def pruneMessages (sz : Msg → Nat) (messages : List Msg) (maxChars : Nat) : List Msg :=
  if messages.length ≤ 2 then messages
  else
    match messages with
    | [] => []
    | systemMsg :: rest =>
      match rest.getLast? with
      | none => messages
      | some lastMsg =>
        systemMsg ::
          (keepLoop sz maxChars rest.dropLast.reverse (sz systemMsg + sz lastMsg) ++ [lastMsg])

/-- The kept interior block is a contiguous suffix of the interior. -/
theorem keepLoop_isSuffix (sz : Msg → Nat) (b : Nat) :
    ∀ (rl : List Msg) (cur : Nat), (keepLoop sz b rl cur) <:+ rl.reverse := by
  intro rl
  induction rl with
  | nil => intro cur; simp [keepLoop]
  | cons m rest ih =>
    intro cur
    simp only [keepLoop, List.reverse_cons]
    by_cases h : cur + sz m > b
    · simp [h]
    · simp only [h, if_neg, ite_false]
      obtain ⟨u, hu⟩ := ih (cur + sz m)
      exact ⟨u, by rw [← hu, List.append_assoc]⟩

/-- Budget: unless the walk kept nothing, the seeded running total of the
kept block stays within the budget. -/
theorem keepLoop_budget (sz : Msg → Nat) (b : Nat) :
    ∀ (rl : List Msg) (cur : Nat),
      keepLoop sz b rl cur = [] ∨
        cur + ((keepLoop sz b rl cur).map sz).sum ≤ b := by
  intro rl
  induction rl with
  | nil => intro cur; left; rfl
  | cons m rest ih =>
    intro cur
    simp only [keepLoop]
    by_cases h : cur + sz m > b
    · left; simp [h]
    · right
      simp only [h, ite_false, List.map_append, List.sum_append, List.map_cons,
        List.map_nil, List.sum_cons, List.sum_nil]
      rcases ih (cur + sz m) with h0 | hle
      · rw [h0]; simpa using Nat.le_of_not_lt h
      · omega

/-- Maximality: the walk either keeps the whole interior, or it stopped at
a message (the one immediately preceding the kept block in the original
order) whose size would have pushed the running total over the budget. -/
theorem keepLoop_maximal (sz : Msg → Nat) (b : Nat) :
    ∀ (rl : List Msg) (cur : Nat),
      keepLoop sz b rl cur = rl.reverse ∨
        ∃ pre m, rl.reverse = pre ++ m :: keepLoop sz b rl cur ∧
          cur + ((keepLoop sz b rl cur).map sz).sum + sz m > b := by
  intro rl
  induction rl with
  | nil => intro cur; left; rfl
  | cons m rest ih =>
    intro cur
    simp only [keepLoop, List.reverse_cons]
    by_cases h : cur + sz m > b
    · right
      refine ⟨rest.reverse, m, by simp [h], ?_⟩
      simp [h]
    · simp only [h, ite_false]
      rcases ih (cur + sz m) with heq | ⟨pre, m2, hsplit, hover⟩
      · left; rw [heq]
      · right
        refine ⟨pre, m2, ?_, ?_⟩
        · rw [hsplit]; simp
        · simp only [List.map_append, List.sum_append, List.map_cons, List.map_nil,
            List.sum_cons, List.sum_nil] at hover ⊢
          omega

/-- If the whole (reversed) list fits in the remaining budget, the walk
keeps all of it. -/
theorem keepLoop_all_of_fits (sz : Msg → Nat) (b : Nat) :
    ∀ (rl : List Msg) (cur : Nat),
      cur + (rl.map sz).sum ≤ b → keepLoop sz b rl cur = rl.reverse := by
  intro rl
  induction rl with
  | nil => intro cur _; rfl
  | cons m rest ih =>
    intro cur hfit
    simp only [List.map_cons, List.sum_cons] at hfit
    have hm : ¬ (cur + sz m > b) := by omega
    simp only [keepLoop, hm, ite_false, List.reverse_cons]
    rw [ih (cur + sz m) (by omega)]

/-- Unfolding `pruneMessages` on a history presented as
first :: interior ++ [last]. -/
theorem pruneMessages_decomp (sz : Msg → Nat) (b : Nat)
    (m0 : Msg) (middle : List Msg) (lastM : Msg) :
    pruneMessages sz (m0 :: (middle ++ [lastM])) b =
      m0 :: (keepLoop sz b middle.reverse (sz m0 + sz lastM) ++ [lastM]) := by
  cases middle with
  | nil =>
    simp [pruneMessages, keepLoop]
  | cons m1 ms =>
    have hlen : ¬ ((m0 :: ((m1 :: ms) ++ [lastM])).length ≤ 2) := by
      simp
    simp only [pruneMessages, hlen, ite_false]
    rw [← List.cons_append, List.getLast?_concat, List.dropLast_concat]

/-- Claim C3: for every message history and character budget,
`pruneMessages` returns the history unchanged when it has two or fewer
messages; otherwise it returns exactly the first message, a contiguous
suffix of the interior messages chosen by walking from most recent to
oldest and stopping (not skipping) at the first message whose serialized
size would push the running total (seeded with the sizes of the first and
last messages) over the budget, followed by the last message, in original
order; in particular, when no interior message fits, it returns exactly
[first, last]. -/
theorem pruneMessages_keep_window {Msg : Type} (sz : Msg → Nat) (b : Nat) (h : List Msg) :
    (h.length ≤ 2 → pruneMessages sz h b = h) ∧
    (∀ m0 middle lastM, h = m0 :: (middle ++ [lastM]) →
      ∃ kept,
        pruneMessages sz h b = m0 :: (kept ++ [lastM]) ∧
        kept <:+ middle ∧
        (kept = [] ∨ sz m0 + sz lastM + (kept.map sz).sum ≤ b) ∧
        (kept = middle ∨ ∃ pre m, middle = pre ++ m :: kept ∧
          sz m0 + sz lastM + (kept.map sz).sum + sz m > b) ∧
        ((∀ m ∈ middle, sz m0 + sz lastM + sz m > b) →
          pruneMessages sz h b = [m0, lastM])) := by
  constructor
  · intro hle
    simp [pruneMessages, hle]
  · intro m0 middle lastM heq
    subst heq
    rw [pruneMessages_decomp]
    refine ⟨keepLoop sz b middle.reverse (sz m0 + sz lastM), rfl, ?_, ?_, ?_, ?_⟩
    · have hs := keepLoop_isSuffix sz b middle.reverse (sz m0 + sz lastM)
      rwa [List.reverse_reverse] at hs
    · exact keepLoop_budget sz b middle.reverse (sz m0 + sz lastM)
    · have hm := keepLoop_maximal sz b middle.reverse (sz m0 + sz lastM)
      rwa [List.reverse_reverse] at hm
    · intro hnofit
      have hempty : keepLoop sz b middle.reverse (sz m0 + sz lastM) = [] := by
        by_contra hne
        rcases keepLoop_budget sz b middle.reverse (sz m0 + sz lastM) with h0 | hle
        · exact hne h0
        · obtain ⟨k0, hk0⟩ := List.exists_mem_of_ne_nil _ hne
          have hmem : k0 ∈ middle := by
            have hs := keepLoop_isSuffix sz b middle.reverse (sz m0 + sz lastM)
            rw [List.reverse_reverse] at hs
            exact hs.subset hk0
          have hsum : sz k0 ≤ ((keepLoop sz b middle.reverse (sz m0 + sz lastM)).map sz).sum :=
            List.single_le_sum (by intro x _; exact Nat.zero_le x) _
              (List.mem_map_of_mem sz hk0)
          have := hnofit k0 hmem
          omega
      rw [hempty]
      rfl

/-- Closed-form instance of the C3 characterization: on the history
[4, 9, 2, 3] (sizes taken literally) with budget 10 the walk keeps the
interior suffix [2], and a two-message history is returned unchanged. -/
theorem pruneMessages_keep_window_witness :
    (pruneMessages (fun n : Nat => n) [4, 9] 10 = [4, 9]) ∧
    (∃ kept, pruneMessages (fun n : Nat => n) [4, 9, 2, 3] 10 = 4 :: (kept ++ [3]) ∧
      kept <:+ [9, 2]) := by
  constructor
  · exact (pruneMessages_keep_window (fun n : Nat => n) 10 [4, 9]).1 (by decide)
  · obtain ⟨kept, hk, hs, _⟩ :=
      (pruneMessages_keep_window (fun n : Nat => n) 10 [4, 9, 2, 3]).2 4 [9, 2] 3 rfl
    exact ⟨kept, hk, hs⟩

/-- Claim C4: `pruneMessages` is idempotent: for every history h and
budget b, pruning an already-pruned history with the same budget returns
it unchanged. -/
theorem pruneMessages_idempotent {Msg : Type} (sz : Msg → Nat) (h : List Msg) (b : Nat) :
    pruneMessages sz (pruneMessages sz h b) b = pruneMessages sz h b := by
  cases h with
  | nil => rfl
  | cons m0 rest =>
    rcases rest.eq_nil_or_concat with hnil | ⟨middle, lastM, hconcat⟩
    · subst hnil; rfl
    · subst hconcat
      rw [show middle.concat lastM = middle ++ [lastM] by simp]
      rw [pruneMessages_decomp, pruneMessages_decomp]
      rcases keepLoop_budget sz b middle.reverse (sz m0 + sz lastM) with h0 | hle
      · rw [h0]
        rfl
      · rw [keepLoop_all_of_fits sz b _ _ (by
          rw [List.map_reverse, List.sum_reverse]
          exact hle)]
        rw [List.reverse_reverse]

end ContextPruner

/-! ### ResponseJsonRecovery: `extractJsonCandidates`

Transcribed from `extractJsonCandidates(text)` in the service source: a
left-to-right scan maintaining a bracket stack and string-literal state;
whenever the stack returns to empty the slice is parsed strictly, retried
once with literal newlines replaced by an escaped newline sequence, and
silently discarded when both attempts fail. `JSON.parse` is modelled by
the executable recursive-descent parser `jsonParse` below (strict JSON
grammar: unescaped control characters in strings are rejected, which is
exactly what makes the newline-escaping retry meaningful; numbers are
kept as their raw lexed token). -/

namespace ResponseJsonRecovery

/-- JSON values as produced by `JSON.parse`. Object fields are kept in
JS-object order (first occurrence of a key keeps its position, a duplicate
key overwrites the value in place). -/
inductive Json where
  | null
  | bool (b : Bool)
  | num (raw : String)
  | str (s : String)
  | arr (items : List Json)
  | obj (fields : List (String × Json))

/-- The whitespace characters permitted between JSON tokens. -/
def isJsonWs (c : Char) : Bool := c = ' ' || c = '\t' || c = '\n' || c = '\r'

/-- Skip inter-token whitespace. -/
def skipWs (cs : List Char) : List Char := cs.dropWhile isJsonWs

/-- Value of a hexadecimal digit, for \u escapes. -/
def hexVal (c : Char) : Option Nat :=
  if c.isDigit then some (c.toNat - 48)
  else if 'a' ≤ c ∧ c ≤ 'f' then some (c.toNat - 87)
  else if 'A' ≤ c ∧ c ≤ 'F' then some (c.toNat - 55)
  else none

/-- Body of a JSON string literal (opening quote already consumed):
returns the decoded characters and the remainder after the closing quote.
Unescaped control characters (in particular raw newlines) are rejected,
as `JSON.parse` rejects them. -/
def parseStringBody : List Char → Option (List Char × List Char)
  | [] => none
  | '"' :: rest => some ([], rest)
  | '\\' :: e :: rest =>
    match e with
    | '"' => (parseStringBody rest).map (fun p => ('"' :: p.1, p.2))
    | '\\' => (parseStringBody rest).map (fun p => ('\\' :: p.1, p.2))
    | '/' => (parseStringBody rest).map (fun p => ('/' :: p.1, p.2))
    | 'b' => (parseStringBody rest).map (fun p => ('\x08' :: p.1, p.2))
    | 'f' => (parseStringBody rest).map (fun p => ('\x0c' :: p.1, p.2))
    | 'n' => (parseStringBody rest).map (fun p => ('\n' :: p.1, p.2))
    | 'r' => (parseStringBody rest).map (fun p => ('\r' :: p.1, p.2))
    | 't' => (parseStringBody rest).map (fun p => ('\t' :: p.1, p.2))
    | 'u' =>
      match rest with
      | h1 :: h2 :: h3 :: h4 :: rest4 =>
        match hexVal h1, hexVal h2, hexVal h3, hexVal h4 with
        | some v1, some v2, some v3, some v4 =>
          (parseStringBody rest4).map
            (fun p => (Char.ofNat (((v1 * 16 + v2) * 16 + v3) * 16 + v4) :: p.1, p.2))
        | _, _, _, _ => none
      | _ => none
    | _ => none
  | c :: rest =>
    if c.toNat < 32 then none
    else (parseStringBody rest).map (fun p => (c :: p.1, p.2))

/-- Integer part of a JSON number: 0, or a nonzero digit followed by
digits (leading zeros are rejected, as in strict JSON). -/
def lexInt : List Char → Option (List Char × List Char)
  | '0' :: r => some (['0'], r)
  | c :: r =>
    if c.isDigit then some (c :: r.takeWhile Char.isDigit, r.dropWhile Char.isDigit)
    else none
  | [] => none

/-- Optional fraction part of a JSON number. -/
def lexFrac : List Char → Option (List Char × List Char)
  | '.' :: r =>
    let ds := r.takeWhile Char.isDigit
    if ds.isEmpty then none else some ('.' :: ds, r.dropWhile Char.isDigit)
  | cs => some ([], cs)

/-- Optional exponent part of a JSON number. -/
def lexExp : List Char → Option (List Char × List Char)
  | c :: r =>
    if c = 'e' ∨ c = 'E' then
      let sr : List Char × List Char :=
        match r with
        | '+' :: r2 => (['+'], r2)
        | '-' :: r2 => (['-'], r2)
        | _ => ([], r)
      let ds := sr.2.takeWhile Char.isDigit
      if ds.isEmpty then none
      else some (c :: (sr.1 ++ ds), sr.2.dropWhile Char.isDigit)
    else some ([], c :: r)
  | [] => some ([], [])

/-- Lex one JSON number token, returned raw. -/
def lexNumber (cs : List Char) : Option (List Char × List Char) := do
  let nr : List Char × List Char :=
    match cs with
    | '-' :: r => (['-'], r)
    | _ => ([], cs)
  let (ip, cs2) ← lexInt nr.2
  let (fp, cs3) ← lexFrac cs2
  let (ep, cs4) ← lexExp cs3
  return (nr.1 ++ ip ++ fp ++ ep, cs4)

/-- JS object-field assignment: a duplicate key overwrites in place,
a new key is appended. -/
def objSet (fields : List (String × Json)) (k : String) (v : Json) : List (String × Json) :=
  if fields.any (fun f => f.1 = k)
  then fields.map (fun f => if f.1 = k then (k, v) else f)
  else fields ++ [(k, v)]

mutual

/-- One JSON value (leading whitespace allowed), fuel-bounded. -/
def parseValue : Nat → List Char → Option (Json × List Char)
  | 0, _ => none
  | Nat.succ fuel, cs =>
    match skipWs cs with
    | '{' :: rest =>
      match skipWs rest with
      | '}' :: r => some (.obj [], r)
      | cs2 => parseMembers fuel cs2 []
    | '[' :: rest =>
      match skipWs rest with
      | ']' :: r => some (.arr [], r)
      | cs2 => parseElements fuel cs2 []
    | '"' :: rest => (parseStringBody rest).map (fun p => (.str (String.mk p.1), p.2))
    | 't' :: 'r' :: 'u' :: 'e' :: rest => some (.bool true, rest)
    | 'f' :: 'a' :: 'l' :: 's' :: 'e' :: rest => some (.bool false, rest)
    | 'n' :: 'u' :: 'l' :: 'l' :: rest => some (.null, rest)
    | cs2 => (lexNumber cs2).map (fun p => (.num (String.mk p.1), p.2))

/-- Object members after the opening brace (input already
whitespace-skipped, at least one member expected). -/
def parseMembers : Nat → List Char → List (String × Json) → Option (Json × List Char)
  | 0, _, _ => none
  | Nat.succ fuel, cs, acc =>
    match cs with
    | '"' :: rest =>
      match parseStringBody rest with
      | none => none
      | some (key, rem) =>
        match skipWs rem with
        | ':' :: rem2 =>
          match parseValue fuel rem2 with
          | none => none
          | some (v, rem3) =>
            let acc2 := objSet acc (String.mk key) v
            match skipWs rem3 with
            | ',' :: rem4 => parseMembers fuel (skipWs rem4) acc2
            | '}' :: rem4 => some (.obj acc2, rem4)
            | _ => none
        | _ => none
    | _ => none

/-- Array elements after the opening bracket (at least one expected). -/
def parseElements : Nat → List Char → List Json → Option (Json × List Char)
  | 0, _, _ => none
  | Nat.succ fuel, cs, acc =>
    match parseValue fuel cs with
    | none => none
    | some (v, rem) =>
      match skipWs rem with
      | ',' :: rem2 => parseElements fuel rem2 (acc ++ [v])
      | ']' :: rem2 => some (.arr (acc ++ [v]), rem2)
      | _ => none

end

/-- Model of `JSON.parse(s)`: parse one value and require only trailing
whitespace after it; `none` models a thrown `SyntaxError`. -/
def jsonParse (s : String) : Option Json :=
  match parseValue (s.length + 1) s.toList with
  | some (v, rest) => if (skipWs rest).isEmpty then some v else none
  | none => none

/-- The retry sanitizer `jsonStr.replace(/(?:\r\n|\r|\n)/g, '\\n')`:
every literal newline sequence becomes the two-character escape. -/
def sanitizeNewlines : List Char → List Char
  | [] => []
  | '\r' :: '\n' :: rest => '\\' :: 'n' :: sanitizeNewlines rest
  | '\r' :: rest => '\\' :: 'n' :: sanitizeNewlines rest
  | '\n' :: rest => '\\' :: 'n' :: sanitizeNewlines rest
  | c :: rest => c :: sanitizeNewlines rest

/-- The two parse attempts of the extractor: strict parse, then a single
retry on the newline-escaped slice; `none` means the candidate is
discarded. -/
def tryParseCandidate (slice : String) : Option Json :=
  match jsonParse slice with
  | some v => some v
  | none => jsonParse (String.mk (sanitizeNewlines slice.toList))

/-- Scanner state of `extractJsonCandidates`: the source's `startIndex`
sentinel -1 is modelled as `none`; the top of the source's array-backed
stack (`stack[stack.length - 1]`) is the head of the list here. -/
structure ScanState where
  candidates : List Json
  stack : List Char
  startIndex : Option Nat
  inString : Bool
  isEscaped : Bool

/-- `text.substring(a, b)` on the original text. -/
def jsSubstring (text : List Char) (a b : Nat) : String :=
  String.mk ((text.drop a).take (b - a))

/-- One iteration of the scanner loop body, transcribed branch for branch
from the source. -/
def scanStep (text : List Char) (i : Nat) (c : Char) (st : ScanState) : ScanState :=
  if st.inString then
    if c = '\\' ∧ ¬ st.isEscaped then { st with isEscaped := true }
    else if c = '"' ∧ ¬ st.isEscaped then { st with inString := false }
    else { st with isEscaped := false }
  else if c = '"' then { st with inString := true }
  else if c = '{' ∨ c = '[' then
    { st with
      startIndex := if st.stack.isEmpty then some i else st.startIndex,
      stack := (if c = '{' then '}' else ']') :: st.stack }
  else if c = '}' ∨ c = ']' then
    match st.stack with
    | top :: stackRest =>
      if c = top then
        if stackRest.isEmpty then
          match st.startIndex with
          | some start =>
            let jsonStr := jsSubstring text start (i + 1)
            let newCandidates :=
              match tryParseCandidate jsonStr with
              | some v => st.candidates ++ [v]
              | none => st.candidates
            { st with candidates := newCandidates, stack := stackRest, startIndex := none }
          | none => { st with stack := stackRest }
        else { st with stack := stackRest }
      else st
    | [] => st
  else st

/-- The scanner loop over all character positions. -/
def scanLoop (text : List Char) : List Char → Nat → ScanState → ScanState
  | [], _, st => st
  | c :: rest, i, st => scanLoop text rest (i + 1) (scanStep text i c st)

/-- Transcription of `extractJsonCandidates(text)`. A total function: a
candidate whose two parse attempts both fail is silently skipped, and the
scan continues with later fragments. -/
def extractJsonCandidates (text : String) : List Json :=
  (scanLoop text.toList text.toList 0 ⟨[], [], none, false, false⟩).candidates

/-- Claim C5: `extractJsonCandidates` is total (it is a Lean function, so
it never fails on any input string) and returns the successfully parsed
JSON values in the order their closing bracket appears. On the input
"prefix \x7b"a":1\x7d middle [1,2,\x7b"b":2\x7d] suffix" it yields exactly
the two values \x7ba:1\x7d and [1,2,\x7bb:2\x7d] in that order; on an
input holding one well-formed fragment and one truncated fragment it
yields exactly the well-formed one; and a candidate slice that fails both
the strict parse and the newline-escaped retry is silently discarded
without aborting extraction of later fragments. -/
theorem extractJsonCandidates_examples :
    extractJsonCandidates "prefix \x7b\"a\":1\x7d middle [1,2,\x7b\"b\":2\x7d] suffix" =
      [Json.obj [("a", Json.num "1")],
       Json.arr [Json.num "1", Json.num "2", Json.obj [("b", Json.num "2")]]] ∧
    extractJsonCandidates "plan: \x7b\"ok\":true\x7d then \x7b\"cut\":1" =
      [Json.obj [("ok", Json.bool true)]] ∧
    extractJsonCandidates "x \x7b\"bad\" 1\x7d y [3]" =
      [Json.arr [Json.num "3"]] := by
  exact ⟨rfl, rfl, rfl⟩

end ResponseJsonRecovery

/-! ### VirtualFileSystem: `FileSystemService`

The memory backend's ownership tree (`MemoryDirectory`/`MemoryFile`,
children held in a JS `Record` keyed by entry name) is embedded as
`MemoryEntry`, with the `Record` as a list in key-insertion order: keys
are unique per directory, assigning an existing key replaces the entry in
place and a new key is appended, matching JS object semantics. The native
backend's host handles (File System Access API: `getDirectoryHandle` /
`getFileHandle` with `\x7bcreate: true\x7d`, `createWritable`/`write`/
`close`, `removeEntry`) are modelled over the same tree type with the
API's documented semantics: a name/kind mismatch raises
`TypeMismatchError`, a missing entry without `create` raises
`NotFoundError`. -/

namespace FileSystemService

/-- A node of the workspace tree (`MemoryEntry` union in the source). -/
inductive MemoryEntry where
  | file (name : String) (content : String)
  | dir (name : String) (children : List MemoryEntry)

/-- The `name` field both variants carry. -/
def MemoryEntry.name : MemoryEntry → String
  | .file n _ => n
  | .dir n _ => n

/-- `children[part]`: look a child up by name. -/
def childNamed (children : List MemoryEntry) (n : String) : Option MemoryEntry :=
  children.find? (fun e => e.name == n)

/-- `children[e.name] = e`: JS object assignment, replacing in place when
the key already exists and appending otherwise. -/
def setChild (children : List MemoryEntry) (e : MemoryEntry) : List MemoryEntry :=
  if children.any (fun c => c.name == e.name)
  then children.map (fun c => if c.name == e.name then e else c)
  else children ++ [e]

/-- JS `string.split(sep)` for a one-character separator, as a structural
recursion over the characters (so that concrete paths evaluate inside the
kernel): the empty string yields one empty segment, as in JS. -/
def splitOnChar (sep : Char) : List Char → List (List Char)
  | [] => [[]]
  | c :: rest =>
    let r := splitOnChar sep rest
    if c = sep then [] :: r
    else (c :: r.headD []) :: r.tail

/-- `path.split('/').filter(p => p !== '.' && p !== '')`. -/
def normalizeParts (path : String) : List String :=
  ((splitOnChar '/' path.toList).map String.mk).filter (fun p => p != "." && p != "")

/-- Change notifications delivered to subscribers. -/
inductive FsEvent where
  | write (path content : String)
  | delete (path : String)

/-- `getMemoryEntry`: walk the parts from a node; descending into a
non-directory or a missing child yields null. -/
def getEntry : MemoryEntry → List String → Option MemoryEntry
  | e, [] => some e
  | .file _ _, _ :: _ => none
  | .dir _ children, part :: rest =>
    match childNamed children part with
    | none => none
    | some e => getEntry e rest

/-- The memory-backend write descent: `ensureMemoryDir(dirPath)` (creating
missing intermediate directories, throwing `Path collision` when a
traversed segment already exists as a file) followed by assigning the file
child, expressed as one functional pass. -/
def memWriteAt : List String → List MemoryEntry → String → String →
    Except String (List MemoryEntry)
  | [], children, fileName, content => .ok (setChild children (.file fileName content))
  | part :: rest, children, fileName, content =>
    match childNamed children part with
    | none =>
      match memWriteAt rest [] fileName content with
      | .ok sub => .ok (setChild children (.dir part sub))
      | .error e => .error e
    | some (.dir dn sub) =>
      match memWriteAt rest sub fileName content with
      | .ok sub2 => .ok (setChild children (.dir dn sub2))
      | .error e => .error e
    | some (.file _ _) => .error ("Path collision: " ++ part ++ " is a file.")

/-- `memoryWriteFile(path, content)` on the root's children: an empty
normalized path is the source's `if (!fileName) return` no-op; a
successful write emits exactly one write notification. -/
def memoryWriteFile (children : List MemoryEntry) (path content : String) :
    Except String (List MemoryEntry × List FsEvent) :=
  let parts := normalizeParts path
  match parts.getLast? with
  | none => .ok (children, [])
  | some fileName =>
    match memWriteAt parts.dropLast children fileName content with
    | .ok children2 => .ok (children2, [FsEvent.write path content])
    | .error e => .error e

/-- `readFile` memory branch: a missing entry or a directory raises
`File not found`. -/
def memoryReadFile (children : List MemoryEntry) (path : String) : Except String String :=
  match getEntry (.dir "root" children) (normalizeParts path) with
  | some (.file _ c) => .ok c
  | _ => .error ("File not found: " ++ path)

/-- The memory delete mutation `delete dirEntry.children[name]`, rebuilt
functionally along the parent path (deleting an absent key is a no-op,
as in JS). -/
def memRemoveAt : List String → List MemoryEntry → String → List MemoryEntry
  | [], children, name => children.filter (fun c => c.name != name)
  | part :: rest, children, name =>
    match childNamed children part with
    | some (.dir dn sub) => setChild children (.dir dn (memRemoveAt rest sub name))
    | _ => children

/-- `deleteEntry` memory branch: resolve the parent directory of the
normalized path; when it exists (and is a directory) delete the child key
and emit exactly one delete notification, otherwise do nothing. -/
def memoryDeleteEntry (children : List MemoryEntry) (path : String) :
    List MemoryEntry × List FsEvent :=
  let parts := normalizeParts path
  match parts.getLast? with
  | none => (children, [])
  | some name =>
    match getEntry (.dir "root" children) parts.dropLast with
    | some (.dir _ _) => (memRemoveAt parts.dropLast children name, [FsEvent.delete path])
    | _ => (children, [])

/-- Native-backend write descent: `getDirectoryHandle(part, \x7bcreate:
true\x7d)` for each directory segment, then `getFileHandle(fileName,
\x7bcreate: true\x7d)` and a write stream replacing the content. -/
def nativeWriteAt : List String → List MemoryEntry → String → String →
    Except String (List MemoryEntry)
  | [], children, fileName, content =>
    match childNamed children fileName with
    | some (.dir _ _) => .error "TypeMismatchError"
    | _ => .ok (setChild children (.file fileName content))
  | part :: rest, children, fileName, content =>
    match childNamed children part with
    | some (.file _ _) => .error "TypeMismatchError"
    | some (.dir dn sub) =>
      match nativeWriteAt rest sub fileName content with
      | .ok sub2 => .ok (setChild children (.dir dn sub2))
      | .error e => .error e
    | none =>
      match nativeWriteAt rest [] fileName content with
      | .ok sub => .ok (setChild children (.dir part sub))
      | .error e => .error e

/-- `getFileHandleNative(path)` followed by `file.text()`: descent without
`create`, so a missing segment raises `NotFoundError`. -/
def nativeReadAt : List String → List MemoryEntry → String → Except String String
  | [], children, fileName =>
    match childNamed children fileName with
    | some (.file _ c) => .ok c
    | some (.dir _ _) => .error "TypeMismatchError"
    | none => .error "NotFoundError"
  | part :: rest, children, fileName =>
    match childNamed children part with
    | some (.dir _ sub) => nativeReadAt rest sub fileName
    | some (.file _ _) => .error "TypeMismatchError"
    | none => .error "NotFoundError"

/-- `readFile` native branch; `getFileHandleNative` throws `Invalid path`
on an empty normalized path. -/
def nativeReadFile (children : List MemoryEntry) (path : String) : Except String String :=
  let parts := normalizeParts path
  match parts.getLast? with
  | none => .error "Invalid path"
  | some fileName => nativeReadAt parts.dropLast children fileName

/-- Native-backend delete descent: `getDirectoryHandle(part)` without
`create` for each segment, then `removeEntry(name, \x7brecursive:
true\x7d)`, which raises `NotFoundError` when the child is absent. -/
def nativeDeleteAt : List String → List MemoryEntry → String →
    Except String (List MemoryEntry)
  | [], children, name =>
    match childNamed children name with
    | some _ => .ok (children.filter (fun c => c.name != name))
    | none => .error "NotFoundError"
  | part :: rest, children, name =>
    match childNamed children part with
    | some (.dir dn sub) =>
      match nativeDeleteAt rest sub name with
      | .ok sub2 => .ok (setChild children (.dir dn sub2))
      | .error e => .error e
    | some (.file _ _) => .error "TypeMismatchError"
    | none => .error "NotFoundError"

/-- The active storage backend of the workspace. -/
inductive Provider where
  | native
  | memory
deriving DecidableEq

/-- `FileSystemService` state: the selected provider and the root children
of each backend tree. -/
structure FSState where
  provider : Provider
  memoryRoot : List MemoryEntry
  nativeRoot : List MemoryEntry

/-- `writeFile(path, content)`: the memory branch delegates to
`memoryWriteFile` (which notifies), the native branch performs the
creating descent and then notifies. An empty normalized path on the
native branch is modelled as an error (the host would receive an
undefined entry name); theorems about valid paths exclude it. -/
def writeFile (s : FSState) (path content : String) :
    Except String (FSState × List FsEvent) :=
  match s.provider with
  | .memory =>
    match memoryWriteFile s.memoryRoot path content with
    | .ok (root2, evs) => .ok ({ s with memoryRoot := root2 }, evs)
    | .error e => .error e
  | .native =>
    let parts := normalizeParts path
    match parts.getLast? with
    | none => .error "Invalid path"
    | some fileName =>
      match nativeWriteAt parts.dropLast s.nativeRoot fileName content with
      | .ok root2 => .ok ({ s with nativeRoot := root2 }, [FsEvent.write path content])
      | .error e => .error e

/-- `readFile(path)` over the active backend. -/
def readFile (s : FSState) (path : String) : Except String String :=
  match s.provider with
  | .memory => memoryReadFile s.memoryRoot path
  | .native => nativeReadFile s.nativeRoot path

/-- `deleteEntry(path)` over the active backend: the memory branch never
throws; the native branch surfaces the host errors. Each successful
mutation emits exactly one delete notification. -/
def deleteEntry (s : FSState) (path : String) :
    Except String (FSState × List FsEvent) :=
  match s.provider with
  | .memory =>
    let r := memoryDeleteEntry s.memoryRoot path
    .ok ({ s with memoryRoot := r.1 }, r.2)
  | .native =>
    let parts := normalizeParts path
    match parts.getLast? with
    | none => .error "Invalid path"
    | some name =>
      match nativeDeleteAt parts.dropLast s.nativeRoot name with
      | .ok root2 => .ok ({ s with nativeRoot := root2 }, [FsEvent.delete path])
      | .error e => .error e

/-- A successful lookup returns an entry bearing the requested name. -/
theorem childNamed_name {children : List MemoryEntry} {n : String} {e : MemoryEntry}
    (h : childNamed children n = some e) : e.name = n := by
  have := List.find?_some h
  exact eq_of_beq this

/-- In-place replacement: when some child already bears the key, looking
the key up in the mapped list returns the new entry. -/
theorem childNamed_map_set (e : MemoryEntry) :
    ∀ ch : List MemoryEntry, ch.any (fun c => c.name == e.name) = true →
      List.find? (fun x => x.name == e.name)
        (ch.map (fun c => if c.name == e.name then e else c)) = some e := by
  intro ch
  induction ch with
  | nil => intro h; simp at h
  | cons c rest ih =>
    intro h
    rw [List.map_cons]
    by_cases hc : (c.name == e.name) = true
    · rw [if_pos hc]
      exact List.find?_cons_of_pos _ (by simp)
    · rw [if_neg hc]
      have hstep :
          List.find? (fun x => x.name == e.name)
              (c :: rest.map (fun c => if c.name == e.name then e else c)) =
            List.find? (fun x => x.name == e.name)
              (rest.map (fun c => if c.name == e.name then e else c)) :=
        List.find?_cons_of_neg _ hc
      rw [hstep]
      apply ih
      simp only [List.any_cons] at h
      rcases Bool.or_eq_true_iff.mp h with h1 | h2
      · exact absurd h1 hc
      · exact h2

/-- Append: when no child bears the key, looking the key up after
appending the new entry returns it. -/
theorem childNamed_append_new (e : MemoryEntry) :
    ∀ ch : List MemoryEntry, ch.any (fun c => c.name == e.name) = false →
      List.find? (fun x => x.name == e.name) (ch ++ [e]) = some e := by
  intro ch
  induction ch with
  | nil =>
    intro _
    exact List.find?_cons_of_pos _ (by simp)
  | cons c rest ih =>
    intro h
    simp only [List.any_cons, Bool.or_eq_false_iff] at h
    rw [List.cons_append]
    have hstep :
        List.find? (fun x => x.name == e.name) (c :: (rest ++ [e])) =
          List.find? (fun x => x.name == e.name) (rest ++ [e]) :=
      List.find?_cons_of_neg _ (by simp [h.1])
    rw [hstep]
    exact ih h.2

/-- Looking up the just-assigned key returns the assigned entry. -/
theorem childNamed_setChild (children : List MemoryEntry) (e : MemoryEntry) :
    childNamed (setChild children e) e.name = some e := by
  unfold setChild childNamed
  by_cases hA : children.any (fun c => c.name == e.name) = true
  · rw [if_pos hA]
    exact childNamed_map_set e children hA
  · rw [if_neg hA]
    exact childNamed_append_new e children (Bool.eq_false_iff.mpr hA)

/-- After a successful memory-backend write descent, walking the same
path finds exactly the written file. -/
theorem memWriteAt_getEntry :
    ∀ (dirParts : List String) (children children2 : List MemoryEntry)
      (f c : String),
      memWriteAt dirParts children f c = .ok children2 →
      ∀ dn, getEntry (.dir dn children2) (dirParts ++ [f]) = some (.file f c) := by
  intro dirParts
  induction dirParts with
  | nil =>
    intro children children2 f c hok dn
    simp only [memWriteAt] at hok
    cases hok
    have hset := childNamed_setChild children (.file f c)
    simp only [MemoryEntry.name] at hset
    simp [getEntry, hset]
  | cons part rest ih =>
    intro children children2 f c hok dn
    cases hcn : childNamed children part with
    | none =>
      cases hsub : memWriteAt rest [] f c with
      | ok sub =>
        simp only [memWriteAt, hcn, hsub] at hok
        cases hok
        have hset := childNamed_setChild children (.dir part sub)
        simp only [MemoryEntry.name] at hset
        simp only [List.cons_append, getEntry, hset]
        exact ih [] sub f c hsub part
      | error e =>
        simp only [memWriteAt, hcn, hsub] at hok
        exact Except.noConfusion hok
    | some entry =>
      cases entry with
      | file n cc =>
        simp only [memWriteAt, hcn] at hok
        exact Except.noConfusion hok
      | dir dn2 sub =>
        cases hsub : memWriteAt rest sub f c with
        | ok sub2 =>
          simp only [memWriteAt, hcn, hsub] at hok
          cases hok
          have hname : (MemoryEntry.dir dn2 sub).name = part := childNamed_name hcn
          simp only [MemoryEntry.name] at hname
          subst hname
          have hset := childNamed_setChild children (.dir dn2 sub2)
          simp only [MemoryEntry.name] at hset
          simp only [List.cons_append, getEntry, hset]
          exact ih sub sub2 f c hsub dn2
        | error e =>
          simp only [memWriteAt, hcn, hsub] at hok
          exact Except.noConfusion hok

/-- After a successful native-backend write descent, the native read
descent over the same path returns the written content. -/
theorem nativeWriteAt_readAt :
    ∀ (dirParts : List String) (children children2 : List MemoryEntry)
      (f c : String),
      nativeWriteAt dirParts children f c = .ok children2 →
      nativeReadAt dirParts children2 f = .ok c := by
  intro dirParts
  induction dirParts with
  | nil =>
    intro children children2 f c hok
    cases hcn : childNamed children f with
    | none =>
      simp only [nativeWriteAt, hcn] at hok
      cases hok
      have hset := childNamed_setChild children (.file f c)
      simp only [MemoryEntry.name] at hset
      simp [nativeReadAt, hset]
    | some entry =>
      cases entry with
      | file n cc =>
        simp only [nativeWriteAt, hcn] at hok
        cases hok
        have hset := childNamed_setChild children (.file f c)
        simp only [MemoryEntry.name] at hset
        simp [nativeReadAt, hset]
      | dir dn sub =>
        simp only [nativeWriteAt, hcn] at hok
        exact Except.noConfusion hok
  | cons part rest ih =>
    intro children children2 f c hok
    cases hcn : childNamed children part with
    | none =>
      cases hsub : nativeWriteAt rest [] f c with
      | ok sub =>
        simp only [nativeWriteAt, hcn, hsub] at hok
        cases hok
        have hset := childNamed_setChild children (.dir part sub)
        simp only [MemoryEntry.name] at hset
        simp only [nativeReadAt, hset]
        exact ih [] sub f c hsub
      | error e =>
        simp only [nativeWriteAt, hcn, hsub] at hok
        exact Except.noConfusion hok
    | some entry =>
      cases entry with
      | file n cc =>
        simp only [nativeWriteAt, hcn] at hok
        exact Except.noConfusion hok
      | dir dn sub =>
        cases hsub : nativeWriteAt rest sub f c with
        | ok sub2 =>
          simp only [nativeWriteAt, hcn, hsub] at hok
          cases hok
          have hname : (MemoryEntry.dir dn sub).name = part := childNamed_name hcn
          simp only [MemoryEntry.name] at hname
          subst hname
          have hset := childNamed_setChild children (.dir dn sub2)
          simp only [MemoryEntry.name] at hset
          simp only [nativeReadAt, hset]
          exact ih sub sub2 f c hsub
        | error e =>
          simp only [nativeWriteAt, hcn, hsub] at hok
          exact Except.noConfusion hok

/-- Claim C7: for every valid path p and content c, `write(p, c)` followed
by `read(p)` returns exactly c, on both the memory backend and the native
backend of the virtual filesystem (a valid path is one with a nonempty
normalized segment list; the write is assumed to succeed, i.e. not to
abort on a path collision). -/
theorem write_read_roundtrip (s : FSState) (path content : String)
    (hne : normalizeParts path ≠ []) :
    ∀ s2 evs, writeFile s path content = .ok (s2, evs) →
      readFile s2 path = .ok content := by
  intro s2 evs hok
  cases hprov : s.provider with
  | memory =>
    cases hlast : (normalizeParts path).getLast? with
    | none =>
      exact absurd (List.getLast?_eq_none_iff.mp hlast) hne
    | some fileName =>
      cases hw : memWriteAt (normalizeParts path).dropLast s.memoryRoot fileName content with
      | ok root2 =>
        simp only [writeFile, hprov, memoryWriteFile, hlast, hw] at hok
        cases hok
        simp only [readFile, hprov, memoryReadFile]
        have hsplit : (normalizeParts path).dropLast ++ [fileName] = normalizeParts path :=
          List.dropLast_append_getLast? fileName hlast
        rw [← hsplit]
        rw [memWriteAt_getEntry _ _ _ _ _ hw "root"]
      | error e =>
        simp only [writeFile, hprov, memoryWriteFile, hlast, hw] at hok
        exact Except.noConfusion hok
  | native =>
    cases hlast : (normalizeParts path).getLast? with
    | none =>
      exact absurd (List.getLast?_eq_none_iff.mp hlast) hne
    | some fileName =>
      cases hw : nativeWriteAt (normalizeParts path).dropLast s.nativeRoot fileName content with
      | ok root2 =>
        simp only [writeFile, hprov, hlast, hw] at hok
        cases hok
        simp only [readFile, hprov, nativeReadFile, hlast]
        exact nativeWriteAt_readAt _ _ _ _ _ hw
      | error e =>
        simp only [writeFile, hprov, hlast, hw] at hok
        exact Except.noConfusion hok

/-- Closed-form instance of C7: writing `src/a.ts` into an empty workspace
and reading it back returns the written content, on each backend. -/
theorem write_read_roundtrip_witness :
    readFile ⟨Provider.memory, [MemoryEntry.dir "src" [MemoryEntry.file "a.ts" "x"]], []⟩
        "src/a.ts" = .ok "x" ∧
    readFile ⟨Provider.native, [], [MemoryEntry.dir "src" [MemoryEntry.file "a.ts" "x"]]⟩
        "src/a.ts" = .ok "x" := by
  constructor
  · exact write_read_roundtrip ⟨Provider.memory, [], []⟩ "src/a.ts" "x" (by decide)
      ⟨Provider.memory, [MemoryEntry.dir "src" [MemoryEntry.file "a.ts" "x"]], []⟩
      [FsEvent.write "src/a.ts" "x"] rfl
  · exact write_read_roundtrip ⟨Provider.native, [], []⟩ "src/a.ts" "x" (by decide)
      ⟨Provider.native, [], [MemoryEntry.dir "src" [MemoryEntry.file "a.ts" "x"]]⟩
      [FsEvent.write "src/a.ts" "x"] rfl

/-! #### `searchFiles`

Transcribed from the memory-backend branch of
`FileSystemService.searchFiles(query)` (the native branch runs the same
per-item logic over host handle iteration). String helpers are defined
over character lists so concrete cases evaluate in the kernel;
`toLowerCase` is modelled for the ASCII range. -/

/-- Does the list start with the given pattern. -/
def startsWithList : List Char → List Char → Bool
  | _, [] => true
  | [], _ :: _ => false
  | c :: cs, d :: ds => c == d && startsWithList cs ds

/-- Is `sub` a contiguous substring of the second list. -/
def containsSubstrList : List Char → List Char → Bool
  | sub, [] => sub.isEmpty
  | sub, c :: cs => startsWithList (c :: cs) sub || containsSubstrList sub cs

/-- JS `s.includes(sub)`. -/
def jsIncludes (s sub : String) : Bool := containsSubstrList sub.toList s.toList

/-- JS `s.toLowerCase()` over the ASCII range. -/
def asciiToLower (s : String) : String := String.mk (s.toList.map Char.toLower)

/-- JS `s.startsWith('.')`. -/
def startsWithDot (s : String) : Bool :=
  match s.toList with
  | '.' :: _ => true
  | _ => false

/-- The directory names `readDirectoryRecursive` skips
(`['node_modules', '.git', 'dist', 'build', '.next']`). -/
def recursiveListerExcluded : List String :=
  ["node_modules", ".git", "dist", "build", ".next"]

/-- The `traverse` closure of `searchFiles`: walk the children in order,
skip any entry named `node_modules` or starting with '.', report files
whose (lowercased) name contains the lowercased query, and recurse into
directories. -/
def searchGo (lowerQuery : String) : List MemoryEntry → String → List String
  | [], _ => []
  | e :: rest, path =>
    if e.name == "node_modules" || startsWithDot e.name then
      searchGo lowerQuery rest path
    else
      let currentPath := if path == "" then e.name else path ++ "/" ++ e.name
      match e with
      | .file _ _ =>
        (if jsIncludes (asciiToLower e.name) lowerQuery then
          ["[NAME] " ++ currentPath] else [])
          ++ searchGo lowerQuery rest path
      | .dir _ sub =>
        searchGo lowerQuery sub currentPath ++ searchGo lowerQuery rest path
termination_by l _ => sizeOf l

/-- `searchFiles(query)` on the memory backend (root path defaults to the
empty string). -/
def memorySearchFiles (children : List MemoryEntry) (query : String) : List String :=
  searchGo (asciiToLower query) children ""

/-- Specification-side view: the (path, name) pairs of every file
reachable without entering an entry named `node_modules` or starting with
'.', in traversal order, with no name matching applied. -/
def reachableFiles : List MemoryEntry → String → List (String × String)
  | [], _ => []
  | e :: rest, path =>
    if e.name == "node_modules" || startsWithDot e.name then
      reachableFiles rest path
    else
      let currentPath := if path == "" then e.name else path ++ "/" ++ e.name
      match e with
      | .file _ _ => (currentPath, e.name) :: reachableFiles rest path
      | .dir _ sub => reachableFiles sub currentPath ++ reachableFiles rest path
termination_by l _ => sizeOf l

/-- The traversal equals: gather the reachable files, keep those whose
name contains the query (case-insensitively), format each hit. -/
theorem searchGo_eq_filter (lq : String) :
    ∀ (n : Nat) (children : List MemoryEntry), sizeOf children ≤ n →
      ∀ path, searchGo lq children path =
        ((reachableFiles children path).filter
            (fun pr => jsIncludes (asciiToLower pr.2) lq)).map
          (fun pr => "[NAME] " ++ pr.1) := by
  intro n
  induction n with
  | zero =>
    intro children hle path
    cases children with
    | nil => simp [searchGo, reachableFiles]
    | cons e rest =>
      simp only [List.cons.sizeOf_spec] at hle
      omega
  | succ n ih =>
    intro children hle path
    cases children with
    | nil => simp [searchGo, reachableFiles]
    | cons e rest =>
      simp only [List.cons.sizeOf_spec] at hle
      have hrest : sizeOf rest ≤ n := by omega
      by_cases hex : (e.name == "node_modules" || startsWithDot e.name) = true
      · simp only [searchGo, reachableFiles, hex, if_true]
        exact ih rest hrest path
      · cases e with
        | file nm c =>
          simp only [searchGo, reachableFiles, hex, if_false, Bool.false_eq_true,
            List.filter_cons, List.map_cons]
          by_cases hmatch :
              (jsIncludes (asciiToLower (MemoryEntry.file nm c).name) lq) = true
          · simp only [hmatch, if_true, List.map_cons, List.singleton_append]
            rw [ih rest hrest path]
          · simp only [hmatch, if_false, List.nil_append]
            exact ih rest hrest path
        | dir dn sub =>
          have hsub : sizeOf sub ≤ n := by
            simp only [MemoryEntry.dir.sizeOf_spec] at hle
            omega
          simp only [searchGo, reachableFiles, hex, if_false, Bool.false_eq_true,
            List.filter_append, List.map_append]
          rw [ih sub hsub, ih rest hrest path]

/-- Claim C9 (amended): `searchFiles` returns exactly the formatted paths
of the files whose name contains the query as a case-insensitive
substring, matching file names only — but its traversal skips entries
named `node_modules` or starting with '.', not the recursive lister's
exclusion list (`dist` and `build` are traversed). -/
theorem searchFiles_name_match (children : List MemoryEntry) (query : String) :
    memorySearchFiles children query =
      ((reachableFiles children "").filter
          (fun pr => jsIncludes (asciiToLower pr.2) (asciiToLower query))).map
        (fun pr => "[NAME] " ++ pr.1) :=
  searchGo_eq_filter (asciiToLower query) (sizeOf children) children (Nat.le_refl _) ""

/-- Counterexample to claim C9 as stated: `dist` is on the recursive
lister's exclusion list, yet `searchFiles` traverses into a `dist`
directory and reports the file inside it. -/
theorem searchFiles_excluded_dirs_counterexample :
    "dist" ∈ recursiveListerExcluded ∧
    memorySearchFiles [MemoryEntry.dir "dist" [MemoryEntry.file "app.js" "x"]] "app" =
      ["[NAME] dist/app.js"] := by
  constructor
  · decide
  · simp only [memorySearchFiles, searchGo]
    decide

end FileSystemService

/-! ### CodeIndex: `KnowledgeService`

The index `Map<string, IndexEntry>` is embedded as a list in JS `Map`
insertion order (`set` on an existing key updates in place, a new key is
appended, `delete` removes; `forEach` iterates in that order). The
regex-based `parseSymbols` heuristic is abstracted as a function parameter
`ps : content → extension → (symbols, summary)`, and `Date.now()` as a
caller-supplied timestamp: none of the verified properties depend on
either. -/

namespace KnowledgeService

open FileSystemService

/-- One indexed file (`IndexEntry` in the source). -/
structure IndexEntry where
  path : String
  symbols : List String
  summary : String
  contentSnippet : String
  lastModified : Nat

/-- `index.set(path, entry)` under JS `Map` semantics. -/
def indexSet (index : List IndexEntry) (e : IndexEntry) : List IndexEntry :=
  if index.any (fun x => x.path == e.path)
  then index.map (fun x => if x.path == e.path then e else x)
  else index ++ [e]

/-- `removeFile(path)`: `index.delete(path)`. -/
def indexRemove (index : List IndexEntry) (p : String) : List IndexEntry :=
  index.filter (fun x => x.path != p)

/-- `.replace(/\s+/g, ' ')` (ASCII whitespace model): each maximal
whitespace run becomes a single space. The Bool argument tracks whether
the previous character was part of a run. -/
def collapseWsGo : Bool → List Char → List Char
  | _, [] => []
  | prevWs, c :: rest =>
    if c.isWhitespace then
      if prevWs then collapseWsGo true rest
      else ' ' :: collapseWsGo true rest
    else c :: collapseWsGo false rest

/-- `indexFile(path, content)`: skip paths containing `node_modules` or
starting with '.', take the extension as the last dot-segment, derive
symbols and summary, store the collapsed 300-character snippet, and upsert
the entry. -/
def indexFile (ps : String → String → List String × String) (now : Nat)
    (index : List IndexEntry) (path content : String) : List IndexEntry :=
  if jsIncludes path "node_modules" || startsWithDot path then index
  else
    let extension := ((splitOnChar '.' path.toList).map String.mk).getLastD ""
    let sr := ps content extension
    indexSet index
      { path := path, symbols := sr.1, summary := sr.2,
        contentSnippet := String.mk (collapseWsGo false (content.toList.take 300)),
        lastModified := now }

/-- The subscription installed by the `KnowledgeService` constructor:
delete events remove the entry, write events with (truthy, i.e. nonempty)
content re-index the path. -/
def onFileChanged (ps : String → String → List String × String) (now : Nat)
    (index : List IndexEntry) : FsEvent → List IndexEntry
  | .delete p => indexRemove index p
  | .write p content => if content != "" then indexFile ps now index p content else index

/-- Deliver a batch of notifications in order. -/
def applyEvents (ps : String → String → List String × String) (now : Nat)
    (index : List IndexEntry) (evs : List FsEvent) : List IndexEntry :=
  evs.foldl (onFileChanged ps now) index

/-- A scored search result prior to rendering. -/
structure SearchHit where
  path : String
  score : Nat
  reason : String

/-- JS `s.split(/\s+/)`: maximal whitespace runs separate tokens, with an
empty token at a boundary that starts or ends with whitespace. The
accumulator holds the current token reversed; the Bool records whether the
previous character was whitespace. -/
def jsSplitGo : List Char → Bool → List Char → List (List Char)
  | cur, _, [] => [cur.reverse]
  | cur, prevWs, c :: rest =>
    if c.isWhitespace then
      if prevWs then jsSplitGo cur true rest
      else cur.reverse :: jsSplitGo [] true rest
    else jsSplitGo (c :: cur) false rest

/-- JS `s.split(/\s+/)` on a string. -/
def jsSplitWsRuns (s : String) : List String :=
  (jsSplitGo [] false s.toList).map String.mk

/-- The per-entry scoring of `search`: +10 for a path containing the raw
(lowercased) query, +5 per symbol containing some query token, +1 (once)
for a snippet containing some token; reasons collect the path/symbol
signals. -/
def scoreEntry (terms : List String) (lowerQuery : String) (entry : IndexEntry) :
    Nat × List String :=
  let base : Nat × List String :=
    if jsIncludes (asciiToLower entry.path) lowerQuery then (10, ["Filename match"])
    else (0, [])
  let withSyms := entry.symbols.foldl
    (fun acc sym =>
      if terms.any (fun t => jsIncludes (asciiToLower sym) t) then
        (acc.1 + 5, acc.2 ++ ["Symbol match: " ++ sym])
      else acc) base
  if terms.any (fun t => jsIncludes (asciiToLower entry.contentSnippet) t)
  then (withSyms.1 + 1, withSyms.2) else withSyms

/-- `search(query)` before rendering: score every entry, keep positive
scores, sort by descending score (stably, as JS `sort`), truncate to the
top 10. -/
def searchScored (index : List IndexEntry) (query : String) : List SearchHit :=
  let lowerQuery := asciiToLower query
  let terms := jsSplitWsRuns lowerQuery
  let results := index.filterMap (fun entry =>
    let sc := scoreEntry terms lowerQuery entry
    if sc.1 > 0 then
      some { path := entry.path, score := sc.1,
             reason := "[" ++ String.intercalate ", " (sc.2.take 2) ++ "] " ++ entry.summary }
    else none)
  (results.mergeSort (fun a b => Nat.ble b.score a.score)).take 10

/-- `search(query)`: the rendered result lines. -/
def search (index : List IndexEntry) (query : String) : List String :=
  (searchScored index query).map
    (fun r => "FILE: " ++ r.path ++ " | RELEVANCE: " ++ r.reason)

/-- Every search hit's path comes from an entry still present in the
index; after removing path p no hit reports p. -/
theorem searchScored_path_mem (index : List IndexEntry) (q : String) :
    ∀ hit ∈ searchScored index q, ∃ entry ∈ index, hit.path = entry.path := by
  intro hit hmem
  simp only [searchScored] at hmem
  have h1 := List.take_subset 10 _ hmem
  have h2 := ((List.mergeSort_perm _ _).mem_iff).mp h1
  obtain ⟨entry, hentry, hf⟩ := List.mem_filterMap.mp h2
  by_cases hsc : (scoreEntry (jsSplitWsRuns (asciiToLower q)) (asciiToLower q) entry).1 > 0
  · simp only [hsc, if_pos] at hf
    cases hf
    exact ⟨entry, hentry, rfl⟩
  · simp only [hsc, if_neg] at hf
    cases hf

end KnowledgeService

/-! ### Composition: the filesystem with the index subscription -/

/-- The application-level state the tool dispatcher acts on: the
filesystem service plus the knowledge index kept fresh through the
subscription. -/
structure AppState where
  fs : FileSystemService.FSState
  index : List KnowledgeService.IndexEntry

/-- `deleteEntry(p)` as observed through the subscription: the filesystem
mutation followed, synchronously before the call returns, by the delivery
of its notifications to the index. -/
def appDeleteEntry (ps : String → String → List String × String) (now : Nat)
    (st : AppState) (path : String) : Except String AppState :=
  match FileSystemService.deleteEntry st.fs path with
  | .ok (fs2, evs) =>
    .ok { fs := fs2, index := KnowledgeService.applyEvents ps now st.index evs }
  | .error e => .error e

namespace FileSystemService

/-- Filtering a name out makes its lookup fail. -/
theorem childNamed_filter_none (children : List MemoryEntry) (name : String) :
    childNamed (children.filter (fun c => c.name != name)) name = none := by
  unfold childNamed
  apply List.find?_eq_none.mpr
  intro x hx
  have hxf := (List.mem_filter.mp hx).2
  simp only [bne_iff_ne, ne_eq, decide_eq_true_eq] at hxf
  simp [hxf]

/-- After the memory-backend delete rebuild, walking to the deleted child
finds nothing (provided the parent path resolved to a directory). -/
theorem memRemoveAt_getEntry_none :
    ∀ (dirParts : List String) (root : List MemoryEntry) (rn name dn : String)
      (ch : List MemoryEntry),
      getEntry (.dir rn root) dirParts = some (.dir dn ch) →
      getEntry (.dir rn (memRemoveAt dirParts root name)) (dirParts ++ [name]) = none := by
  intro dirParts
  induction dirParts with
  | nil =>
    intro root rn name dn ch _
    simp only [memRemoveAt, List.nil_append, getEntry, childNamed_filter_none]
  | cons part rest ih =>
    intro root rn name dn ch hget
    cases hcn : childNamed root part with
    | none =>
      simp only [getEntry, hcn] at hget
      exact Option.noConfusion hget
    | some e =>
      cases e with
      | file fn fc =>
        simp only [getEntry, hcn] at hget
        cases rest with
        | nil => simp [getEntry] at hget
        | cons r rs => simp [getEntry] at hget
      | dir d2 sub =>
        simp only [getEntry, hcn] at hget
        have hname : (MemoryEntry.dir d2 sub).name = part := childNamed_name hcn
        simp only [MemoryEntry.name] at hname
        subst hname
        simp only [memRemoveAt, hcn, List.cons_append, getEntry]
        have hset := childNamed_setChild root (.dir d2 (memRemoveAt rest sub name))
        simp only [MemoryEntry.name] at hset
        rw [hset]
        exact ih sub d2 name dn ch hget

/-- After a successful native-backend delete, the native read descent to
the deleted entry raises `NotFoundError`. -/
theorem nativeDeleteAt_readAt :
    ∀ (dirParts : List String) (root root2 : List MemoryEntry) (name : String),
      nativeDeleteAt dirParts root name = .ok root2 →
      nativeReadAt dirParts root2 name = .error "NotFoundError" := by
  intro dirParts
  induction dirParts with
  | nil =>
    intro root root2 name hok
    cases hcn : childNamed root name with
    | none =>
      simp only [nativeDeleteAt, hcn] at hok
      exact Except.noConfusion hok
    | some e =>
      simp only [nativeDeleteAt, hcn] at hok
      cases hok
      simp only [nativeReadAt, childNamed_filter_none]
  | cons part rest ih =>
    intro root root2 name hok
    cases hcn : childNamed root part with
    | none =>
      simp only [nativeDeleteAt, hcn] at hok
      exact Except.noConfusion hok
    | some e =>
      cases e with
      | file fn fc =>
        simp only [nativeDeleteAt, hcn] at hok
        exact Except.noConfusion hok
      | dir dn sub =>
        cases hsub : nativeDeleteAt rest sub name with
        | ok sub2 =>
          simp only [nativeDeleteAt, hcn, hsub] at hok
          cases hok
          have hname : (MemoryEntry.dir dn sub).name = part := childNamed_name hcn
          simp only [MemoryEntry.name] at hname
          subst hname
          have hset := childNamed_setChild root (.dir dn sub2)
          simp only [MemoryEntry.name] at hset
          simp only [nativeReadAt, hset]
          exact ih sub sub2 name hsub
        | error e2 =>
          simp only [nativeDeleteAt, hcn, hsub] at hok
          exact Except.noConfusion hok

end FileSystemService

/-- Claim C8: for every indexed file path p, a `deleteEntry(p)` that
commits (emitting its delete notification) makes a subsequent
`readFile(p)` fail with a not-found error, and a subsequent CodeIndex
search returns no result for p — the delete notification removes p's
index entry synchronously, before the delete call returns. Holds on both
backends. -/
theorem deleteEntry_read_fails_index_removed
    (ps : String → String → List String × String) (now : Nat)
    (st : AppState) (p : String) (fs2 : FileSystemService.FSState)
    (hdel : FileSystemService.deleteEntry st.fs p =
      .ok (fs2, [FileSystemService.FsEvent.delete p])) :
    appDeleteEntry ps now st p =
      .ok { fs := fs2, index := KnowledgeService.indexRemove st.index p } ∧
    (∃ msg, FileSystemService.readFile fs2 p = .error msg) ∧
    (∀ q hit, hit ∈ KnowledgeService.searchScored
        (KnowledgeService.indexRemove st.index p) q → hit.path ≠ p) := by
  refine ⟨?_, ?_, ?_⟩
  · simp only [appDeleteEntry, hdel]
    rfl
  · cases hprov : st.fs.provider with
    | memory =>
      cases hlast : (FileSystemService.normalizeParts p).getLast? with
      | none =>
        simp only [FileSystemService.deleteEntry, hprov,
          FileSystemService.memoryDeleteEntry, hlast] at hdel
        cases hdel
      | some name =>
        cases hpe : FileSystemService.getEntry
            (.dir "root" st.fs.memoryRoot) (FileSystemService.normalizeParts p).dropLast with
        | none =>
          simp only [FileSystemService.deleteEntry, hprov,
            FileSystemService.memoryDeleteEntry, hlast, hpe] at hdel
          cases hdel
        | some e =>
          cases e with
          | file fn fc =>
            simp only [FileSystemService.deleteEntry, hprov,
              FileSystemService.memoryDeleteEntry, hlast, hpe] at hdel
            cases hdel
          | dir dn ch =>
            simp only [FileSystemService.deleteEntry, hprov,
              FileSystemService.memoryDeleteEntry, hlast, hpe] at hdel
            cases hdel
            refine ⟨"File not found: " ++ p, ?_⟩
            simp only [FileSystemService.readFile, hprov,
              FileSystemService.memoryReadFile]
            have hsplit : (FileSystemService.normalizeParts p).dropLast ++ [name] =
                FileSystemService.normalizeParts p :=
              List.dropLast_append_getLast? name hlast
            have hnone := FileSystemService.memRemoveAt_getEntry_none
              (FileSystemService.normalizeParts p).dropLast st.fs.memoryRoot
              "root" name dn ch hpe
            rw [hsplit] at hnone
            simp only [hnone]
    | native =>
      cases hlast : (FileSystemService.normalizeParts p).getLast? with
      | none =>
        simp only [FileSystemService.deleteEntry, hprov, hlast] at hdel
        exact Except.noConfusion hdel
      | some name =>
        cases hnd : FileSystemService.nativeDeleteAt
            (FileSystemService.normalizeParts p).dropLast st.fs.nativeRoot name with
        | ok root2 =>
          simp only [FileSystemService.deleteEntry, hprov, hlast, hnd] at hdel
          cases hdel
          refine ⟨"NotFoundError", ?_⟩
          simp only [FileSystemService.readFile, hprov,
            FileSystemService.nativeReadFile, hlast]
          exact FileSystemService.nativeDeleteAt_readAt _ _ _ _ hnd
        | error e =>
          simp only [FileSystemService.deleteEntry, hprov, hlast, hnd] at hdel
          exact Except.noConfusion hdel
  · intro q hit hmem
    obtain ⟨entry, hentry, hpath⟩ :=
      KnowledgeService.searchScored_path_mem _ q hit hmem
    have hf := (List.mem_filter.mp hentry).2
    simp only [bne_iff_ne, ne_eq, decide_eq_true_eq] at hf
    rw [hpath]
    exact hf

/-- Closed-form instance of C8 on the memory backend: deleting
`src/a.ts` removes both the file and its index entry, and the subsequent
read fails. -/
theorem deleteEntry_read_fails_index_removed_witness :
    appDeleteEntry (fun _ _ => ([], "")) 0
        ⟨⟨FileSystemService.Provider.memory,
          [FileSystemService.MemoryEntry.dir "src"
            [FileSystemService.MemoryEntry.file "a.ts" "x"]], []⟩,
         [⟨"src/a.ts", ["Var: x"], "summary", "x", 0⟩]⟩ "src/a.ts" =
      .ok ⟨⟨FileSystemService.Provider.memory,
        [FileSystemService.MemoryEntry.dir "src" []], []⟩, []⟩ ∧
    (∃ msg, FileSystemService.readFile
        ⟨FileSystemService.Provider.memory,
          [FileSystemService.MemoryEntry.dir "src" []], []⟩ "src/a.ts" = .error msg) := by
  have h := deleteEntry_read_fails_index_removed (fun _ _ => ([], "")) 0
    ⟨⟨FileSystemService.Provider.memory,
      [FileSystemService.MemoryEntry.dir "src"
        [FileSystemService.MemoryEntry.file "a.ts" "x"]], []⟩,
     [⟨"src/a.ts", ["Var: x"], "summary", "x", 0⟩]⟩ "src/a.ts"
    ⟨FileSystemService.Provider.memory,
      [FileSystemService.MemoryEntry.dir "src" []], []⟩ rfl
  exact ⟨h.1, h.2.1⟩

/-! ### SyntaxService and the tool-execution boundary

`SyntaxService.validate` gates writes of JS/TS/JSX/TSX files through
Babel. `window.Babel.transform` is an external CDN collaborator, embedded
as the function parameter `babel : code → filename → Option errorMessage`
(a missing `window.Babel`, which makes the source return null, is the
constant-none function). The dispatcher `AIService.executeTool` is
embedded for the file-backed tools the claims exercise; the remaining
registry tools (listFiles, readMultipleFiles, createDirectory,
runTerminal, deployToPreview, fetchUrl) call external collaborators
(host listing, shell executor, preview bundler, network) and are outside
the embedding. Its try/catch wrapper turns every service error into an
`\x7berror\x7d` result. -/

namespace AIService

open FileSystemService

/-- `/\.(js|jsx|ts|tsx)$/.test(filename)`. -/
def endsWithString (s sfx : String) : Bool :=
  startsWithList s.toList.reverse sfx.toList.reverse

/-- The extension scope of the syntax validator. -/
def hasJsLikeExtension (filename : String) : Bool :=
  endsWithString filename ".js" || endsWithString filename ".jsx" ||
    endsWithString filename ".ts" || endsWithString filename ".tsx"

/-- `SyntaxService.validate(code, filename)`: only JS/TS/JSX/TSX files are
validated (anything else passes with null); otherwise the Babel
collaborator decides. -/
def validate (babel : String → String → Option String) (code filename : String) :
    Option String :=
  if !(hasJsLikeExtension filename) then none
  else babel code filename

/-- The tool calls of `executeTool` backed by the virtual filesystem and
the code index. -/
inductive ToolCall where
  | writeFile (path content : String)
  | readFile (path : String)
  | deleteFile (path : String)
  | searchFiles (query : String)
  | searchCodebase (query : String)

/-- A tool result: a success payload or an `\x7berror\x7d` object. -/
inductive ToolResult where
  | success
  | errorRes (msg : String)
  | content (s : String)
  | results (l : List String)

/-- `AIService.executeTool(name, args)` over the embedded tools: the
writeFile case validates the syntax first and short-circuits on a
reported problem without touching the filesystem; every service error
becomes an error result; each filesystem mutation delivers its
notifications to the index before the dispatch returns. -/
def executeTool (babel : String → String → Option String)
    (ps : String → String → List String × String) (now : Nat)
    (st : AppState) : ToolCall → ToolResult × AppState
  | .writeFile path c =>
    match validate babel c path with
    | some err => (.errorRes ("Syntax Error: " ++ err), st)
    | none =>
      match FileSystemService.writeFile st.fs path c with
      | .ok (fs2, evs) =>
        (.success, { fs := fs2, index := KnowledgeService.applyEvents ps now st.index evs })
      | .error e => (.errorRes e, st)
  | .readFile path =>
    match FileSystemService.readFile st.fs path with
    | .ok c => (.content c, st)
    | .error e => (.errorRes e, st)
  | .deleteFile path =>
    match FileSystemService.deleteEntry st.fs path with
    | .ok (fs2, evs) =>
      (.success, { fs := fs2, index := KnowledgeService.applyEvents ps now st.index evs })
    | .error e => (.errorRes e, st)
  | .searchFiles q => (.results (memorySearchFiles st.fs.memoryRoot q), st)
  | .searchCodebase q => (.results (KnowledgeService.search st.index q), st)

/-- Claim C6: for every writeFile tool invocation whose path has a
JS/TS/JSX/TSX extension and whose content the syntax validator reports as
invalid, the dispatcher returns an error result and the virtual
filesystem is left unchanged: a subsequent read of that path returns
exactly what it returned before the write (its pre-write content, or the
not-found error if the file never existed). -/
theorem writeFile_syntax_error_atomic
    (babel : String → String → Option String)
    (ps : String → String → List String × String) (now : Nat)
    (st : AppState) (p c err : String)
    (hext : hasJsLikeExtension p = true) (hbabel : babel c p = some err) :
    executeTool babel ps now st (.writeFile p c) =
      (.errorRes ("Syntax Error: " ++ err), st) ∧
    FileSystemService.readFile (executeTool babel ps now st (.writeFile p c)).2.fs p =
      FileSystemService.readFile st.fs p := by
  have hval : validate babel c p = some err := by
    simp only [validate, hext, Bool.not_true, Bool.false_eq_true, if_false]
    exact hbabel
  constructor
  · simp only [executeTool, hval]
  · simp only [executeTool, hval]

/-- Closed-form instance of C6: a rejected `.ts` write into an empty
memory workspace errors and leaves the path unreadable (not found). -/
theorem writeFile_syntax_error_atomic_witness :
    executeTool (fun _ _ => some "Unexpected token (1:5)") (fun _ _ => ([], "")) 0
        ⟨⟨Provider.memory, [], []⟩, []⟩ (.writeFile "src/bad.ts" "let = ;") =
      (.errorRes "Syntax Error: Unexpected token (1:5)", ⟨⟨Provider.memory, [], []⟩, []⟩) ∧
    FileSystemService.readFile ⟨Provider.memory, [], []⟩ "src/bad.ts" =
      .error "File not found: src/bad.ts" := by
  refine ⟨?_, rfl⟩
  exact (writeFile_syntax_error_atomic (fun _ _ => some "Unexpected token (1:5)")
    (fun _ _ => ([], "")) 0 ⟨⟨Provider.memory, [], []⟩, []⟩
    "src/bad.ts" "let = ;" "Unexpected token (1:5)" (by decide) rfl).1

/-- Claim C10: on the memory backend, `deleteEntry(p)` where p's parent
directory exists but p itself does not still completes without error —
the deleteFile tool reports success — and still emits exactly one delete
notification for p, so subscribers such as the code index receive delete
events for paths that were never present (and the index entry for p, if
any, is removed). -/
theorem deleteFile_missing_entry_succeeds
    (babel : String → String → Option String)
    (ps : String → String → List String × String) (now : Nat)
    (st : AppState) (p : String) (dirParts : List String) (name dn : String)
    (ch : List MemoryEntry)
    (hprov : st.fs.provider = Provider.memory)
    (hsplit : normalizeParts p = dirParts ++ [name])
    (hparent : getEntry (.dir "root" st.fs.memoryRoot) dirParts = some (.dir dn ch))
    (_hmiss : childNamed ch name = none) :
    FileSystemService.deleteEntry st.fs p =
      .ok ({ st.fs with memoryRoot := memRemoveAt dirParts st.fs.memoryRoot name },
           [FsEvent.delete p]) ∧
    executeTool babel ps now st (.deleteFile p) =
      (.success,
        ⟨{ st.fs with memoryRoot := memRemoveAt dirParts st.fs.memoryRoot name },
         KnowledgeService.indexRemove st.index p⟩) := by
  have hlast : (normalizeParts p).getLast? = some name := by
    rw [hsplit, List.getLast?_concat]
  have hdropLast : (normalizeParts p).dropLast = dirParts := by
    rw [hsplit, List.dropLast_concat]
  have hdel : FileSystemService.deleteEntry st.fs p =
      .ok ({ st.fs with memoryRoot := memRemoveAt dirParts st.fs.memoryRoot name },
           [FsEvent.delete p]) := by
    simp only [FileSystemService.deleteEntry, hprov, memoryDeleteEntry, hlast,
      hdropLast, hparent]
  refine ⟨hdel, ?_⟩
  simp only [executeTool, hdel]
  rfl

/-- Closed-form instance of C10: deleting the absent `src/missing.ts`
under the existing directory `src` succeeds, emits the delete
notification, and leaves the tree as it was. -/
theorem deleteFile_missing_entry_succeeds_witness :
    FileSystemService.deleteEntry
        ⟨Provider.memory, [MemoryEntry.dir "src" []], []⟩ "src/missing.ts" =
      .ok (⟨Provider.memory, [MemoryEntry.dir "src" []], []⟩,
           [FsEvent.delete "src/missing.ts"]) ∧
    executeTool (fun _ _ => none) (fun _ _ => ([], "")) 0
        ⟨⟨Provider.memory, [MemoryEntry.dir "src" []], []⟩, []⟩
        (.deleteFile "src/missing.ts") =
      (.success, ⟨⟨Provider.memory, [MemoryEntry.dir "src" []], []⟩, []⟩) := by
  have h := deleteFile_missing_entry_succeeds (fun _ _ => none) (fun _ _ => ([], "")) 0
    ⟨⟨Provider.memory, [MemoryEntry.dir "src" []], []⟩, []⟩ "src/missing.ts"
    ["src"] "missing.ts" "src" [] rfl (by decide) rfl rfl
  exact ⟨h.1, h.2⟩

end AIService

/-! ### AgentOrchestrator: the tool-calling loops of `AIService.sendMessage`

Both provider branches are embedded as loop skeletons over an abstract
response stream `provider : Nat → response`, indexed by the number of
provider calls already made on that branch (tool dispatch happens inside
an iteration and only influences what the provider answers next, which the
abstraction absorbs; network transport failures are outside these claims).
The cancellation signal is `signal : Nat → Bool` — whether the abort
signal has fired when the n-th network attempt starts. In the source the
Google branch never references its `signal` parameter; the
OpenAI-compatible branch passes it to `fetch`, which rejects the attempt
with an abort error once the signal has fired. Each loop returns
(result, tool round-trips performed, provider network calls issued). -/

namespace AgentOrchestrator

/-- A function call requested by the Google response
(`response.functionCalls[i]`). -/
structure GCall where
  name : String
  args : String
  id : String

/-- A Google provider reply: requested tool calls and the reply text
(`response.text || ""` — the fallback is the identity on strings). -/
structure GoogleResponse where
  functionCalls : List GCall
  text : String

/-- A tool call of an OpenAI-compatible reply
(`choices[0].message.tool_calls[i]`). -/
structure OACall where
  name : String
  arguments : String
  id : String

/-- `choices[0].message` of an OpenAI-compatible reply. -/
structure OAMessage where
  tool_calls : List OACall
  content : String

/-- The hard turn ceiling of both branches (`const maxTurns = 5`). -/
def maxTurns : Nat := 5

/-- The Google branch's `while (response.functionCalls && ... && turn <
maxTurns)` loop: the fuel is `maxTurns - turn`; each iteration dispatches
the requested tools and sends the function responses as the next network
call. On loop exit — no more tool calls, or the ceiling — the branch
returns `response.text || ""`. -/
def googleLoop (provider : Nat → GoogleResponse) :
    Nat → GoogleResponse → Nat → Nat → String × Nat × Nat
  | 0, resp, rounds, sent => (resp.text, rounds, sent)
  | fuel + 1, resp, rounds, sent =>
    if resp.functionCalls.isEmpty then (resp.text, rounds, sent)
    else googleLoop provider fuel (provider sent) (rounds + 1) (sent + 1)

/-- The Google branch of `sendMessage`: one initial `chat.sendMessage`
then the tool loop. The cancellation signal is a parameter the branch
never consults, exactly as in the source. -/
def sendMessageGoogle (provider : Nat → GoogleResponse) (_signal : Nat → Bool) :
    String × Nat × Nat :=
  googleLoop provider maxTurns (provider 0) 0 1

/-- The OpenAI-compatible branch's `while (turn < maxTurns)` loop: each
iteration is a `fetch` carrying the signal (an attempt under a fired
signal rejects with an abort error and issues no provider call); a reply
without tool calls returns its content, a reply with tool calls dispatches
them and counts a turn; exhausting the ceiling returns the sentinel. -/
def openaiLoop (provider : Nat → OAMessage) (signal : Nat → Bool) :
    Nat → Nat → Nat → Except String String × Nat × Nat
  | 0, rounds, sent => (.ok "Max turns reached", rounds, sent)
  | fuel + 1, rounds, sent =>
    if signal sent then (.error "AbortError", rounds, sent)
    else
      let msg := provider sent
      if msg.tool_calls.isEmpty then (.ok msg.content, rounds, sent + 1)
      else openaiLoop provider signal fuel (rounds + 1) (sent + 1)

/-- The OpenAI-compatible branch of `sendMessage`. -/
def sendMessageOpenAI (provider : Nat → OAMessage) (signal : Nat → Bool) :
    Except String String × Nat × Nat :=
  openaiLoop provider signal maxTurns 0 0

/-- Bounds on the Google loop: at most `fuel` further rounds and network
calls. -/
theorem googleLoop_bounds (provider : Nat → GoogleResponse) :
    ∀ (fuel : Nat) (resp : GoogleResponse) (rounds sent : Nat),
      (googleLoop provider fuel resp rounds sent).2.1 ≤ rounds + fuel ∧
      (googleLoop provider fuel resp rounds sent).2.2 ≤ sent + fuel := by
  intro fuel
  induction fuel with
  | zero => intro resp rounds sent; exact ⟨Nat.le_refl _, Nat.le_refl _⟩
  | succ fuel ih =>
    intro resp rounds sent
    by_cases h : resp.functionCalls.isEmpty = true
    · have hg : googleLoop provider (fuel + 1) resp rounds sent = (resp.text, rounds, sent) := by
        simp [googleLoop, h]
      rw [hg]
      exact ⟨(by omega : rounds ≤ rounds + (fuel + 1)),
        (by omega : sent ≤ sent + (fuel + 1))⟩
    · have hg : googleLoop provider (fuel + 1) resp rounds sent =
          googleLoop provider fuel (provider sent) (rounds + 1) (sent + 1) := by
        simp [googleLoop, h]
      rw [hg]
      have := ih (provider sent) (rounds + 1) (sent + 1)
      exact ⟨by omega, by omega⟩

/-- Bounds on the OpenAI loop: at most `fuel` further rounds and calls. -/
theorem openaiLoop_bounds (provider : Nat → OAMessage) (signal : Nat → Bool) :
    ∀ (fuel : Nat) (rounds sent : Nat),
      (openaiLoop provider signal fuel rounds sent).2.1 ≤ rounds + fuel ∧
      (openaiLoop provider signal fuel rounds sent).2.2 ≤ sent + fuel := by
  intro fuel
  induction fuel with
  | zero => intro rounds sent; exact ⟨Nat.le_refl _, Nat.le_refl _⟩
  | succ fuel ih =>
    intro rounds sent
    by_cases hs : signal sent = true
    · have hg : openaiLoop provider signal (fuel + 1) rounds sent =
          (.error "AbortError", rounds, sent) := by
        simp [openaiLoop, hs]
      rw [hg]
      exact ⟨(by omega : rounds ≤ rounds + (fuel + 1)),
        (by omega : sent ≤ sent + (fuel + 1))⟩
    · by_cases ht : (provider sent).tool_calls.isEmpty = true
      · have hg : openaiLoop provider signal (fuel + 1) rounds sent =
            (.ok (provider sent).content, rounds, sent + 1) := by
          simp [openaiLoop, hs, ht]
        rw [hg]
        exact ⟨(by omega : rounds ≤ rounds + (fuel + 1)),
          (by omega : sent + 1 ≤ sent + (fuel + 1))⟩
      · have hg : openaiLoop provider signal (fuel + 1) rounds sent =
            openaiLoop provider signal fuel (rounds + 1) (sent + 1) := by
          simp [openaiLoop, hs, ht]
        rw [hg]
        have := ih (rounds + 1) (sent + 1)
        exact ⟨by omega, by omega⟩

/-- Claim C1 (amended): on both provider branches the loop performs at
most 5 tool round-trips and terminates normally even when the provider
keeps requesting tool calls — but only the OpenAI-compatible branch
returns the sentinel "Max turns reached" on exceeding the ceiling; the
Google branch instead returns the final response's text (possibly
empty). -/
theorem toolLoop_turn_ceiling :
    (∀ gp sig, (sendMessageGoogle gp sig).2.1 ≤ 5) ∧
    (∀ op sig, (sendMessageOpenAI op sig).2.1 ≤ 5) ∧
    (∀ op, (∀ n, ¬ (op n).tool_calls.isEmpty = true) →
      sendMessageOpenAI op (fun _ => false) = (.ok "Max turns reached", 5, 5)) ∧
    (∀ gp sig, (∀ n, ¬ (gp n).functionCalls.isEmpty = true) →
      sendMessageGoogle gp sig = ((gp 5).text, 5, 6)) := by
  refine ⟨?_, ?_, ?_, ?_⟩
  · intro gp sig
    have := (googleLoop_bounds gp maxTurns (gp 0) 0 1).1
    simpa [sendMessageGoogle, maxTurns] using this
  · intro op sig
    have := (openaiLoop_bounds op sig maxTurns 0 0).1
    simpa [sendMessageOpenAI, maxTurns] using this
  · intro op h
    simp [sendMessageOpenAI, maxTurns, openaiLoop, h 0, h 1, h 2, h 3, h 4]
  · intro gp sig h
    simp [sendMessageGoogle, maxTurns, googleLoop, h 0, h 1, h 2, h 3, h 4]

/-- A provider stub that always requests another tool call and carries no
reply text, as in the runaway-loop test of the specification. -/
def gpStub : Nat → GoogleResponse :=
  fun _ => ⟨[⟨"listFiles", "", "call1"⟩], ""⟩

/-- The OpenAI-compatible counterpart of the always-tool stub. -/
def opStub : Nat → OAMessage :=
  fun _ => ⟨[⟨"listFiles", "", "call1"⟩], ""⟩

/-- Counterexample to claim C1 as stated: with the always-tool stub the
Google branch stops after its 5 round-trips but returns the empty reply
text, not the "max turns reached" sentinel (under either casing). -/
theorem google_no_sentinel_counterexample :
    (sendMessageGoogle gpStub (fun _ => false)).2.1 = 5 ∧
    (sendMessageGoogle gpStub (fun _ => false)).1 = "" ∧
    (sendMessageGoogle gpStub (fun _ => false)).1 ≠ "max turns reached" ∧
    (sendMessageGoogle gpStub (fun _ => false)).1 ≠ "Max turns reached" := by
  exact ⟨by decide, by decide, by decide, by decide⟩

/-- Closed-form instance of the amended C1: both always-tool stubs stop
after exactly 5 round-trips, the OpenAI branch with the sentinel. -/
theorem toolLoop_turn_ceiling_witness :
    sendMessageOpenAI opStub (fun _ => false) = (.ok "Max turns reached", 5, 5) ∧
    sendMessageGoogle gpStub (fun _ => false) = ((gpStub 5).text, 5, 6) := by
  constructor
  · exact toolLoop_turn_ceiling.2.2.1 opStub (fun n => by simp [opStub])
  · exact toolLoop_turn_ceiling.2.2.2 gpStub (fun _ => false) (fun n => by simp [gpStub])

/-- Claim C2 (amended): the Google branch ignores the cancellation signal
entirely — its run is identical under any two signals — while on the
OpenAI-compatible branch a fired (and monotone) signal bounds the provider
calls: no call is issued at or after the index where the signal is fired,
and a signal observed at the first suspension point terminates the run
with the abort error and no provider call at all. -/
theorem cancellation_semantics :
    (∀ gp sig sig2, sendMessageGoogle gp sig = sendMessageGoogle gp sig2) ∧
    (∀ op sig k, (∀ i j, i ≤ j → sig i = true → sig j = true) → sig k = true →
      (sendMessageOpenAI op sig).2.2 ≤ k) ∧
    (∀ op sig, sig 0 = true →
      sendMessageOpenAI op sig = (.error "AbortError", 0, 0)) := by
  refine ⟨?_, ?_, ?_⟩
  · intro gp sig sig2
    rfl
  · intro op sig k hmono hk
    have key : ∀ (fuel rounds sent : Nat),
        (openaiLoop op sig fuel rounds sent).2.2 ≤ max sent k := by
      intro fuel
      induction fuel with
      | zero =>
        intro rounds sent
        exact Nat.le_max_left _ _
      | succ fuel ih =>
        intro rounds sent
        by_cases hs : sig sent = true
        · have hg : openaiLoop op sig (fuel + 1) rounds sent =
              (.error "AbortError", rounds, sent) := by
            simp [openaiLoop, hs]
          rw [hg]
          exact Nat.le_max_left _ _
        · have hlt : sent < k := by
            by_contra hge
            exact hs (hmono k sent (by omega) hk)
          by_cases ht : (op sent).tool_calls.isEmpty = true
          · have hg : openaiLoop op sig (fuel + 1) rounds sent =
                (.ok (op sent).content, rounds, sent + 1) := by
              simp [openaiLoop, hs, ht]
            rw [hg]
            exact Nat.le_trans ((by omega : sent + 1 ≤ k)) (Nat.le_max_right sent k)
          · have hg : openaiLoop op sig (fuel + 1) rounds sent =
                openaiLoop op sig fuel (rounds + 1) (sent + 1) := by
              simp [openaiLoop, hs, ht]
            rw [hg]
            have := ih (rounds + 1) (sent + 1)
            have hmax : max (sent + 1) k = k := Nat.max_eq_right (by omega)
            rw [hmax] at this
            exact Nat.le_trans this (Nat.le_max_right sent k)
    have := key maxTurns 0 0
    simpa [sendMessageOpenAI] using this
  · intro op sig h0
    simp [sendMessageOpenAI, maxTurns, openaiLoop, h0]

/-- Counterexample to claim C2 as stated: fire the signal right after the
first tool dispatch begins (from the second network attempt on). The
Google branch still issues all 6 network calls, finishes its 5
round-trips, and terminates with the normal (Done) result — identically
to a run whose signal never fires — rather than aborting. -/
theorem google_ignores_signal_counterexample :
    (sendMessageGoogle gpStub (fun n => decide (1 ≤ n))).2.2 = 6 ∧
    (sendMessageGoogle gpStub (fun n => decide (1 ≤ n))).2.1 = 5 ∧
    sendMessageGoogle gpStub (fun n => decide (1 ≤ n)) =
      sendMessageGoogle gpStub (fun _ => false) := by
  exact ⟨by decide, by decide, rfl⟩

/-- Closed-form instance of the amended C2: an already-fired signal aborts
the OpenAI branch with no provider call; a signal fired from attempt 2 on
allows at most 2 provider calls. -/
theorem cancellation_semantics_witness :
    sendMessageOpenAI opStub (fun _ => true) = (.error "AbortError", 0, 0) ∧
    (sendMessageOpenAI opStub (fun n => decide (2 ≤ n))).2.2 ≤ 2 := by
  constructor
  · exact cancellation_semantics.2.2 opStub (fun _ => true) rfl
  · exact cancellation_semantics.2.1 opStub (fun n => decide (2 ≤ n)) 2
      (fun i j hij hi => by
        simp only [decide_eq_true_eq] at hi ⊢
        omega)
      (by decide)

end AgentOrchestrator

end IDEhome
